import Mathlib

/-!
Shallow embedding of the Gamma-robust First-Fit VM consolidation heuristic
(`Code99per.py`): the VM/PM data model, the robust CPU evaluator
`robust_cpu_usage`, the feasibility gate `can_place_vm_on_pm`, the audit
`check_feasibility`, the transactional single-iteration step, the `run` loop,
and the constructor's VM/PM synchronisation.

Python floats are modelled as rationals; the two Python dicts keyed by VM/PM
id are modelled as insertion-ordered lists of records (the dict's value
order).  The seeded random sampling (`rng.sample`) and the arbitrary
iteration order of `list(set(...))` are modelled as explicit oracle
parameters, so theorems quantify over every behaviour the Python runtime can
exhibit.
-/

namespace GammaFF

/-- A virtual machine record (`VM` dataclass): id, CPU center `u_c`,
CPU radius `u_r`, memory demand `mem`, and current host `pm_id`. -/
structure VM where
  id : String
  u_c : ℚ
  u_r : ℚ
  mem : ℚ
  pm_id : Option Int := none
deriving DecidableEq

/-- Worst-case individual CPU demand, `u_max = u_c + u_r`. -/
def VM.u_max (v : VM) : ℚ := v.u_c + v.u_r

/-- A physical machine record (`PM` dataclass): id, CPU capacity, memory
capacity, resident VM ids, and the derived `active` flag. -/
structure PM where
  id : Int
  cpu_cap : ℚ
  mem_cap : ℚ
  vms : List String := []
  active : Bool := true
deriving DecidableEq

/-- The fixed floating-point tolerance `1e-9` used in every capacity
comparison. -/
def eps : ℚ := 1 / 1000000000

/-- Sort a list of rationals in descending order (`sorted(..., reverse=True)`). -/
def sortDesc (l : List ℚ) : List ℚ := List.insertionSort (· ≥ ·) l

/-- Sum of the `G` largest values of `l` (the `sum(radii[:G])` slice of the
descending sort). -/
def topSum (G : ℕ) (l : List ℚ) : ℚ := ((sortDesc l).take G).sum

/-- The G-robust CPU usage of the VMs on one PM (`robust_cpu_usage`):
0 for an empty collection, otherwise the sum of centers plus the sum of the
`G` largest radii. -/
def robust_cpu_usage (vms_on_pm : List VM) (G : ℕ) : ℚ :=
  if vms_on_pm.isEmpty then 0
  else (vms_on_pm.map VM.u_c).sum + topSum G (vms_on_pm.map VM.u_r)

/-- Dictionary lookup `all_vms[vid]`, as a find on the value list. -/
def lookupVM (all_vms : List VM) (vid : String) : Option VM :=
  all_vms.find? (fun v => v.id == vid)

/-- Resolve a list of VM ids against the VM dictionary
(`[all_vms[vid] for vid in pm.vms]`). -/
def lookupVMs (all_vms : List VM) (ids : List String) : List VM :=
  ids.filterMap (lookupVM all_vms)

/-- The feasibility gate `can_place_vm_on_pm`: the hypothetical resident set
must satisfy the robust CPU bound and the memory bound, both with tolerance
`eps`. -/
def can_place_vm_on_pm (vm : VM) (pm : PM) (all_vms : List VM) (G : ℕ) : Bool :=
  let current_vms := lookupVMs all_vms pm.vms ++ [vm]
  let cpu := robust_cpu_usage current_vms G
  if cpu > pm.cpu_cap + eps then false
  else if (current_vms.map VM.mem).sum > pm.mem_cap + eps then false
  else true

/-- The engine state: the PM dictionary's values (insertion order), the VM
dictionary's values (insertion order), and the migration counter. -/
structure SolverState where
  pms : List PM
  vms : List VM
  migration_count : ℕ
deriving DecidableEq

/-- Kind of a capacity violation reported by `check_feasibility`. -/
inductive ViolationKind where
  | cpu
  | mem
deriving DecidableEq

/-- One structured violation entry of `check_feasibility`'s error list. -/
structure Violation where
  pm_id : Int
  kind : ViolationKind
  measured : ℚ
  cap : ℚ
deriving DecidableEq

/-- The violations `check_feasibility` records for one PM: a CPU entry when
the robust usage exceeds `cpu_cap + eps`, then a memory entry when the
memory sum exceeds `mem_cap + eps`. -/
def pmViolations (all_vms : List VM) (G : ℕ) (pm : PM) : List Violation :=
  let vms_on_pm := lookupVMs all_vms pm.vms
  let cpu := robust_cpu_usage vms_on_pm G
  let m := (vms_on_pm.map VM.mem).sum
  (if cpu > pm.cpu_cap + eps then [⟨pm.id, .cpu, cpu, pm.cpu_cap⟩] else []) ++
    (if m > pm.mem_cap + eps then [⟨pm.id, .mem, m, pm.mem_cap⟩] else [])

/-- The audit `check_feasibility`: every PM's current residents are checked
against both bounds; returns (no violation found, the violation list). -/
def check_feasibility (G : ℕ) (st : SolverState) : Bool × List Violation :=
  let errors := (st.pms.map (pmViolations st.vms G)).flatten
  (errors.isEmpty, errors)

/-- Python's `min(l, key=key)` over a list of PMs: the first element
attaining the minimal key (`None` on an empty list, where Python raises). -/
def pyMinBy (key : PM → ℕ) : List PM → Option PM
  | [] => none
  | x :: xs => some (xs.foldl (fun best pm => if key pm < key best then pm else best) x)

/-- Target selection of `_single_iteration` step 1: the first PM with a
non-empty resident list attaining the minimal resident count. -/
def selectTarget (pms : List PM) : Option PM :=
  pyMinBy (fun pm => pm.vms.length) (pms.filter (fun pm => !pm.vms.isEmpty))

/-- The sample size `max(1, int(len(pm.vms) * sample_ratio))`. -/
def sampleK (ratio : ℚ) (n : ℕ) : ℕ := max 1 (Int.toNat ⌊(n : ℚ) * ratio⌋)

/-- One pass of the sampling loop over a single PM: the target PM and empty
PMs are skipped; otherwise `samp` (the oracle standing for `rng.sample`)
picks the sampled ids, which are removed from the PM's resident list. -/
def sampleStep (ratio : ℚ) (samp : Int → List String → ℕ → List String)
    (targetId : Int) (pm : PM) : PM × List String :=
  if pm.id == targetId || pm.vms.isEmpty then (pm, [])
  else
    let sampled := samp pm.id pm.vms (sampleK ratio pm.vms.length)
    ({ pm with vms := pm.vms.filter (fun vid => !sampled.contains vid) }, sampled)

/-- The worst-case demand sort key `self._vms[vid].u_max` (0 when the id is
dangling, where Python would raise). -/
def umaxOf (all_vms : List VM) (vid : String) : ℚ :=
  match lookupVM all_vms vid with
  | some v => v.u_max
  | none => 0

/-- The comparison underlying the queue sort: descending `u_max`. -/
def queueLe (all_vms : List VM) (a b : String) : Prop :=
  umaxOf all_vms b ≤ umaxOf all_vms a

instance (all_vms : List VM) : DecidableRel (queueLe all_vms) := fun a b =>
  inferInstanceAs (Decidable (umaxOf all_vms b ≤ umaxOf all_vms a))

/-- The queue sort `queue_vm_ids.sort(key=u_max, reverse=True)`: a stable
sort by descending `u_max` (insertion sort is stable, like Python's sort). -/
def sortQueue (all_vms : List VM) (q : List String) : List String :=
  List.insertionSort (queueLe all_vms) q

/-- First-Fit scan of `_single_iteration` step 4: place `vm` on the first PM
of the dictionary order passing the feasibility gate, appending its id to
that PM's residents and marking it active; returns the chosen PM id and the
updated PM list. -/
def firstFit (G : ℕ) (all_vms : List VM) (vm : VM) : List PM → Option (Int × List PM)
  | [] => none
  | pm :: rest =>
    if can_place_vm_on_pm vm pm all_vms G then
      some (pm.id, { pm with vms := pm.vms ++ [vm.id], active := true } :: rest)
    else
      (firstFit G all_vms vm rest).map (fun r => (r.1, pm :: r.2))

/-- The assignment update `vm.pm_id = pm.id` on the VM dictionary. -/
def setPmId (vid : String) (pid : Int) (all_vms : List VM) : List VM :=
  all_vms.map (fun v => if v.id == vid then { v with pm_id := some pid } else v)

/-- Greedy re-placement of the whole queue: each id is resolved and
first-fit placed; `none` when some VM fits nowhere (the iteration is then
rolled back). -/
def placeQueue (G : ℕ) : List String → List PM → List VM → Option (List PM × List VM)
  | [], pms, vms => some (pms, vms)
  | vid :: rest, pms, vms =>
    match lookupVM vms vid with
    | none => none
    | some vm =>
      match firstFit G vms vm pms with
      | none => none
      | some (pid, pms') => placeQueue G rest pms' (setPmId vid pid vms)

/-- The migration count of one committed iteration: the number of VM records
whose `pm_id` differs from the pre-iteration snapshot. -/
def countMoved (oldVms newVms : List VM) : ℕ :=
  (newVms.filter (fun v =>
    match lookupVM oldVms v.id with
    | some ov => ov.pm_id != v.pm_id
    | none => false)).length

/-- One GammaFF iteration (`_single_iteration`), with the random sampling
(`samp`) and the `list(set(...))` iteration order (`ded`) as oracles.
On failure the pre-iteration state is the result (snapshot rollback); on
success the active flags are recomputed and the migration counter grows by
the number of reassigned VMs. -/
def single_iteration (G : ℕ) (ratio : ℚ)
    (samp : Int → List String → ℕ → List String)
    (ded : List String → List String)
    (st : SolverState) : SolverState × Bool :=
  match selectTarget st.pms with
  | none => (st, false)
  | some tgt =>
    let pms1 := st.pms.map (fun pm => if pm.id == tgt.id then { pm with vms := [] } else pm)
    let stepped := pms1.map (sampleStep ratio samp tgt.id)
    let queue := sortQueue st.vms (ded (tgt.vms ++ (stepped.map Prod.snd).flatten))
    match placeQueue G queue (stepped.map Prod.fst) st.vms with
    | none => (st, false)
    | some (pms3, vms3) =>
      ({ pms := pms3.map (fun pm => { pm with active := !pm.vms.isEmpty }),
         vms := vms3,
         migration_count := st.migration_count + countMoved st.vms vms3 }, true)

/-- The `run` loop: up to `fuel` iterations, stopping at the first failure,
accumulating the `improved_anything` flag; the oracle families are indexed
by the iteration counter. -/
def runLoop (G : ℕ) (ratio : ℚ)
    (samp : ℕ → Int → List String → ℕ → List String)
    (ded : ℕ → List String → List String) :
    ℕ → ℕ → SolverState → Bool → SolverState × Bool
  | 0, _, st, improved => (st, improved)
  | fuel + 1, idx, st, improved =>
    let r := single_iteration G ratio (samp idx) (ded idx) st
    if r.2 then runLoop G ratio samp ded fuel (idx + 1) r.1 true
    else (r.1, improved)

/-- The public `run()`: drives `runLoop` for `max_iter` iterations and
returns the final state with the `improved_anything` flag. -/
def run (G : ℕ) (ratio : ℚ) (max_iter : ℕ)
    (samp : ℕ → Int → List String → ℕ → List String)
    (ded : ℕ → List String → List String)
    (st : SolverState) : SolverState × Bool :=
  runLoop G ratio samp ded max_iter 0 st false

/-- The trace of the `run` loop: for each executed iteration, its index, its
pre-iteration state, and whether it committed.  The loop stops after the
first failed entry. -/
def runTrace (G : ℕ) (ratio : ℚ)
    (samp : ℕ → Int → List String → ℕ → List String)
    (ded : ℕ → List String → List String) :
    ℕ → ℕ → SolverState → List (ℕ × SolverState × Bool)
  | 0, _, _ => []
  | fuel + 1, idx, st =>
    let r := single_iteration G ratio (samp idx) (ded idx) st
    if r.2 then (idx, st, true) :: runTrace G ratio samp ded fuel (idx + 1) r.1
    else [(idx, st, false)]

/-- Python dict insertion for the VM dictionary: a duplicate id overwrites
the value in place, a fresh id is appended. -/
def pyDictInsertVM (l : List VM) (vm : VM) : List VM :=
  if l.any (fun v => v.id == vm.id) then l.map (fun v => if v.id == vm.id then vm else v)
  else l ++ [vm]

/-- The VM dictionary built by the constructor comprehension. -/
def pyDictVMs (vms : List VM) : List VM := vms.foldl pyDictInsertVM []

/-- Python dict insertion for the PM dictionary. -/
def pyDictInsertPM (l : List PM) (pm : PM) : List PM :=
  if l.any (fun p => p.id == pm.id) then l.map (fun p => if p.id == pm.id then pm else p)
  else l ++ [pm]

/-- The PM dictionary built by the constructor comprehension. -/
def pyDictPMs (pms : List PM) : List PM := pms.foldl pyDictInsertPM []

/-- The loop of `_sync_vm_pm_lists`: each VM with a host reference is
appended to that host's resident list; a reference to an absent PM id raises
the descriptive `ValueError`. -/
def syncVMs : List VM → List PM → Except String (List PM)
  | [], pms => .ok pms
  | vm :: rest, pms =>
    match vm.pm_id with
    | none => syncVMs rest pms
    | some pid =>
      if pms.any (fun pm => pm.id == pid) then
        syncVMs rest (pms.map (fun pm =>
          if pm.id == pid then { pm with vms := pm.vms ++ [vm.id] } else pm))
      else .error ("VM " ++ vm.id ++ " refers to non-existent PM " ++ toString pid)

/-- The whole `_sync_vm_pm_lists`: clear every resident list, replay every
VM's host reference, then recompute the active flags. -/
def sync_vm_pm_lists (pms : List PM) (vms : List VM) : Except String (List PM) :=
  match syncVMs vms (pms.map (fun pm => { pm with vms := [] })) with
  | .error e => .error e
  | .ok pms2 => .ok (pms2.map (fun pm => { pm with active := !pm.vms.isEmpty }))

/-- The engine constructor (`GammaFFSolver.__init__`): deep-copies the
inputs into the two dictionaries, zeroes the migration counter, and runs
`_sync_vm_pm_lists`; an error means no engine instance is produced. -/
def mkSolver (pms : List PM) (vms : List VM) : Except String SolverState :=
  let vmD := pyDictVMs vms
  match sync_vm_pm_lists (pyDictPMs pms) vmD with
  | .error e => .error e
  | .ok pms2 => .ok { pms := pms2, vms := vmD, migration_count := 0 }

/-- Admissibility of a `list(set(...))` order oracle: the output is
duplicate-free and has exactly the members of the input. -/
def DedOk (ded : List String → List String) : Prop :=
  ∀ l, (ded l).Nodup ∧ ∀ x, x ∈ ded l ↔ x ∈ l

/-- Modelled from the spec: the target-selection rule as the specification
words it, "fewest resident VMs, ties broken by lowest host identifier", for
comparison with the source's `selectTarget`. -/
def specTarget (pms : List PM) : Option PM :=
  (pms.filter (fun pm => !pm.vms.isEmpty)).foldl
    (fun acc pm =>
      match acc with
      | none => some pm
      | some best =>
        if pm.vms.length < best.vms.length ∨
            (pm.vms.length = best.vms.length ∧ pm.id < best.id) then some pm
        else acc)
    none

/-- Modelled from the spec: the queue order as the specification words it,
"descending worst-case demand, ties broken by VM identifier". -/
def specQueueRel (all_vms : List VM) (a b : String) : Prop :=
  umaxOf all_vms b < umaxOf all_vms a ∨ (umaxOf all_vms a = umaxOf all_vms b ∧ a ≤ b)

instance (all_vms : List VM) : DecidableRel (specQueueRel all_vms) := fun a b =>
  inferInstanceAs (Decidable (umaxOf all_vms b < umaxOf all_vms a ∨
    (umaxOf all_vms a = umaxOf all_vms b ∧ a ≤ b)))

/-- Nonnegativity of every VM attribute, the data-model invariant. -/
def NonnegVMs (vms : List VM) : Prop :=
  ∀ v ∈ vms, 0 ≤ v.u_c ∧ 0 ≤ v.u_r ∧ 0 ≤ v.mem

/-- Feasibility of one PM under a VM dictionary: both capacity bounds hold
with tolerance `eps`. -/
def pmOk (all_vms : List VM) (G : ℕ) (pm : PM) : Prop :=
  robust_cpu_usage (lookupVMs all_vms pm.vms) G ≤ pm.cpu_cap + eps ∧
    ((lookupVMs all_vms pm.vms).map VM.mem).sum ≤ pm.mem_cap + eps


/-- A deterministic sampler instance (take the first `k`), one admissible
behaviour of `rng.sample`, used for concrete scenarios. -/
def sampTake : ℕ → Int → List String → ℕ → List String := fun _ _ l k => l.take k

/-- A deterministic `list(set(...))` order instance (first-occurrence dedup),
used for concrete scenarios. -/
def dedDedup : ℕ → List String → List String := fun _ l => l.dedup

/-- An admissible `list(set(...))` order instance that reverses the dedup
order, exhibiting a tie order the hash-set iteration may produce. -/
def dedRevDedup : List String → List String := fun l => l.dedup.reverse

/-- Concrete VM for the self-replacement scenario: fits alone on its host. -/
def vmA : VM := ⟨"a", 3, 1, 2, some 0⟩

/-- Concrete host for the self-replacement scenario. -/
def pmA : PM := ⟨0, 10, 10, ["a"], true⟩

/-- Concrete one-host one-VM engine state. -/
def st0 : SolverState := ⟨[pmA], [vmA], 0⟩

/-- Concrete VM whose memory exceeds its host's capacity. -/
def vmF : VM := ⟨"a", 3, 1, 2, some 0⟩

/-- Concrete host with zero memory capacity: re-placement must fail. -/
def pmF : PM := ⟨0, 10, 0, ["a"], true⟩

/-- Concrete state on which every iteration fails and rolls back. -/
def stF : SolverState := ⟨[pmF], [vmF], 0⟩

/-- Concrete host with identifier 5 holding one VM. -/
def pmX : PM := ⟨5, 1, 1, ["v1"], true⟩

/-- Concrete host with identifier 2 holding one VM. -/
def pmY : PM := ⟨2, 1, 1, ["v2"], true⟩

/-- Two equal-demand VMs with identifiers "a" and "b". -/
def vmQa : VM := ⟨"a", 1, 1, 0, none⟩

/-- Second equal-demand VM. -/
def vmQb : VM := ⟨"b", 1, 1, 0, none⟩

/-- The VM dictionary for the queue tie-break scenario. -/
def vmsQ : List VM := [vmQa, vmQb]

/-- Concrete VM with radius 0, a budget increase adds nothing. -/
def vmR : VM := ⟨"a", 1, 0, 0, none⟩

/-- Concrete host for the constructor-validation scenario. -/
def pmW : PM := ⟨1, 10, 10, [], true⟩

/-- Concrete VM referencing host id 2, absent from the host list. -/
def vmW : VM := ⟨"a", 1, 1, 1, some 2⟩

theorem sortDesc_perm (l : List ℚ) : List.Perm (sortDesc l) l := List.perm_insertionSort _ l

theorem sortDesc_sorted (l : List ℚ) : List.Sorted (· ≥ ·) (sortDesc l) :=
  List.sorted_insertionSort _ l

theorem sortDesc_congr {l₁ l₂ : List ℚ} (h : List.Perm l₁ l₂) : sortDesc l₁ = sortDesc l₂ :=
  List.eq_of_perm_of_sorted (((sortDesc_perm l₁).trans h).trans (sortDesc_perm l₂).symm)
    (sortDesc_sorted l₁) (sortDesc_sorted l₂)

theorem sum_take_succ_le (a : ℚ) (ha : 0 ≤ a) :
    ∀ (l : List ℚ), (∀ x ∈ l, x ≤ a) → ∀ n, (l.take (n + 1)).sum ≤ a + (l.take n).sum
  | [], _, n => by simp [ha]
  | b :: t, hle, 0 => by
    have hb : b ≤ a := hle b (List.mem_cons_self b t)
    simpa using hb
  | b :: t, hle, (n + 1) => by
    have ih := sum_take_succ_le a ha t (fun x hx => hle x (List.mem_cons_of_mem b hx)) n
    simp only [List.take_succ_cons, List.sum_cons]
    linarith

theorem sum_take_le_of_sublist_sorted :
    ∀ {l₁ l₂ : List ℚ}, List.Sublist l₁ l₂ → List.Sorted (· ≥ ·) l₂ → (∀ x ∈ l₂, 0 ≤ x) →
      ∀ G, (l₁.take G).sum ≤ (l₂.take G).sum := by
  intro l₁ l₂ h
  induction h with
  | slnil => intro _ _ G; simp
  | cons a h ih =>
    intro hs h0 G
    refine (ih hs.of_cons (fun x hx => h0 x (List.mem_cons_of_mem a hx)) G).trans ?_
    cases G with
    | zero => simp
    | succ n =>
      have ha : 0 ≤ a := h0 a (List.mem_cons_self a _)
      have := sum_take_succ_le a ha _ (fun x hx => List.rel_of_sorted_cons hs x hx) n
      simpa using this
  | cons₂ a h ih =>
    intro hs h0 G
    cases G with
    | zero => simp
    | succ n =>
      have := ih hs.of_cons (fun x hx => h0 x (List.mem_cons_of_mem a hx)) n
      simp only [List.take_succ_cons, List.sum_cons]
      linarith


theorem sorted_ge_subperm_sublist :
    ∀ {l₂ l₁ : List ℚ}, List.Subperm l₁ l₂ → List.Sorted (· ≥ ·) l₁ →
      List.Sorted (· ≥ ·) l₂ → List.Sublist l₁ l₂
  | l₂, [], _, _, _ => List.nil_sublist l₂
  | [], a :: s, h, _, _ => by simp at h
  | b :: t, a :: s, h, h1, h2 => by
    by_cases hab : a = b
    · subst hab
      exact (sorted_ge_subperm_sublist ((List.subperm_cons a).mp h) h1.of_cons h2.of_cons).cons₂ a
    · have hat : a ∈ t := by
        cases List.mem_cons.mp (h.subset (List.mem_cons_self a s)) with
        | inl hh => exact absurd hh hab
        | inr hh => exact hh
      have hbs : b ∉ a :: s := by
        intro hb
        cases List.mem_cons.mp hb with
        | inl hh => exact hab (hh.symm)
        | inr hh =>
          have hba : b ≤ a := List.rel_of_sorted_cons h1 b hh
          have hab' : a ≤ b := List.rel_of_sorted_cons h2 a hat
          exact hab (le_antisymm hab' hba)
      have hm : (↑(a :: s) : Multiset ℚ) ≤ ↑(b :: t) := Multiset.coe_le.mpr h
      have hm' : (↑(a :: s) : Multiset ℚ) ≤ ↑t := by
        have hb : b ∉ (↑(a :: s) : Multiset ℚ) := by simpa using hbs
        rw [← Multiset.cons_coe] at hm
        exact (Multiset.le_cons_of_not_mem hb).mp hm
      exact (sorted_ge_subperm_sublist (Multiset.coe_le.mp hm') h1 h2.of_cons).cons b

theorem topSum_mono_sublist {l₁ l₂ : List ℚ} (h : List.Sublist l₁ l₂)
    (h0 : ∀ x ∈ l₂, 0 ≤ x) (G : ℕ) : topSum G l₁ ≤ topSum G l₂ := by
  have hm : (↑(sortDesc l₁) : Multiset ℚ) ≤ ↑(sortDesc l₂) := by
    rw [Multiset.coe_eq_coe.mpr (sortDesc_perm l₁), Multiset.coe_eq_coe.mpr (sortDesc_perm l₂)]
    exact Multiset.coe_le.mpr h.subperm
  have hsub := sorted_ge_subperm_sublist (Multiset.coe_le.mp hm)
    (sortDesc_sorted l₁) (sortDesc_sorted l₂)
  have h0' : ∀ x ∈ sortDesc l₂, 0 ≤ x := fun x hx => h0 x ((sortDesc_perm l₂).mem_iff.mp hx)
  exact sum_take_le_of_sublist_sorted hsub (sortDesc_sorted l₂) h0' G

theorem topSum_nonneg {l : List ℚ} (h0 : ∀ x ∈ l, 0 ≤ x) (G : ℕ) : 0 ≤ topSum G l :=
  List.sum_nonneg fun x hx =>
    h0 x ((sortDesc_perm l).mem_iff.mp (List.take_subset G (sortDesc l) hx))

theorem topSum_le_sum {l : List ℚ} (h0 : ∀ x ∈ l, 0 ≤ x) (G : ℕ) : topSum G l ≤ l.sum := by
  have h1 : ((sortDesc l).take G).sum ≤ (sortDesc l).sum :=
    (List.take_sublist G (sortDesc l)).sum_le_sum
      (fun x hx => h0 x ((sortDesc_perm l).mem_iff.mp hx))
  calc topSum G l ≤ (sortDesc l).sum := h1
    _ = l.sum := (sortDesc_perm l).sum_eq

theorem topSum_mono_budget {l : List ℚ} {G G' : ℕ} (hGG : G ≤ G')
    (h0 : ∀ x ∈ l, 0 ≤ x) : topSum G l ≤ topSum G' l := by
  have h1 : ((sortDesc l).take G').take G = (sortDesc l).take G := by
    rw [List.take_take, Nat.min_eq_left hGG]
  have h2 : (((sortDesc l).take G').take G).sum ≤ ((sortDesc l).take G').sum :=
    (List.take_sublist G ((sortDesc l).take G')).sum_le_sum
      (fun x hx => h0 x ((sortDesc_perm l).mem_iff.mp (List.take_subset G' (sortDesc l) hx)))
  rw [h1] at h2
  exact h2


theorem robust_cpu_usage_nonneg {vs : List VM} (h0 : NonnegVMs vs) (G : ℕ) :
    0 ≤ robust_cpu_usage vs G := by
  unfold robust_cpu_usage
  split
  · exact le_refl 0
  · have hc : 0 ≤ (vs.map VM.u_c).sum :=
      List.sum_nonneg (by
        intro x hx
        obtain ⟨v, hv, rfl⟩ := List.mem_map.mp hx
        exact (h0 v hv).1)
    have hr : 0 ≤ topSum G (vs.map VM.u_r) :=
      topSum_nonneg (by
        intro x hx
        obtain ⟨v, hv, rfl⟩ := List.mem_map.mp hx
        exact (h0 v hv).2.1) G
    linarith

theorem robust_cpu_usage_mono_sublist {vs1 vs2 : List VM} (h : List.Sublist vs1 vs2)
    (h0 : NonnegVMs vs2) (G : ℕ) : robust_cpu_usage vs1 G ≤ robust_cpu_usage vs2 G := by
  by_cases h1 : vs1.isEmpty
  · have he : robust_cpu_usage vs1 G = 0 := by unfold robust_cpu_usage; simp [h1]
    rw [he]
    exact robust_cpu_usage_nonneg h0 G
  · have h2 : vs2.isEmpty = false := by
      cases vs1 with
      | nil => simp at h1
      | cons a t =>
        cases vs2 with
        | nil => exact absurd (List.sublist_nil.mp h) (by simp)
        | cons b u => rfl
    unfold robust_cpu_usage
    rw [if_neg (by simp_all), if_neg (by simp [h2])]
    have hc : (vs1.map VM.u_c).sum ≤ (vs2.map VM.u_c).sum :=
      (h.map VM.u_c).sum_le_sum (by
        intro x hx
        obtain ⟨v, hv, rfl⟩ := List.mem_map.mp hx
        exact (h0 v hv).1)
    have hr : topSum G (vs1.map VM.u_r) ≤ topSum G (vs2.map VM.u_r) :=
      topSum_mono_sublist (h.map VM.u_r) (by
        intro x hx
        obtain ⟨v, hv, rfl⟩ := List.mem_map.mp hx
        exact (h0 v hv).2.1) G
    linarith

theorem memSum_mono_sublist {vs1 vs2 : List VM} (h : List.Sublist vs1 vs2)
    (h0 : NonnegVMs vs2) : (vs1.map VM.mem).sum ≤ (vs2.map VM.mem).sum :=
  (h.map VM.mem).sum_le_sum (by
    intro x hx
    obtain ⟨v, hv, rfl⟩ := List.mem_map.mp hx
    exact (h0 v hv).2.2)

theorem robust_cpu_usage_congr_attrs {vs1 vs2 : List VM} (G : ℕ)
    (hc : vs1.map VM.u_c = vs2.map VM.u_c) (hr : vs1.map VM.u_r = vs2.map VM.u_r) :
    robust_cpu_usage vs1 G = robust_cpu_usage vs2 G := by
  have hlen : vs1.length = vs2.length := by
    have h := congrArg List.length hc
    simpa using h
  unfold robust_cpu_usage
  simp only [hc, hr, List.isEmpty_iff_length_eq_zero, hlen]

theorem setPmId_map_u_c (vid : String) (pid : Int) (vs : List VM) :
    (setPmId vid pid vs).map VM.u_c = vs.map VM.u_c := by
  unfold setPmId
  rw [List.map_map]
  apply List.map_congr_left
  intro v _
  by_cases h : v.id = vid <;> simp [h]

theorem setPmId_map_u_r (vid : String) (pid : Int) (vs : List VM) :
    (setPmId vid pid vs).map VM.u_r = vs.map VM.u_r := by
  unfold setPmId
  rw [List.map_map]
  apply List.map_congr_left
  intro v _
  by_cases h : v.id = vid <;> simp [h]

theorem setPmId_map_mem (vid : String) (pid : Int) (vs : List VM) :
    (setPmId vid pid vs).map VM.mem = vs.map VM.mem := by
  unfold setPmId
  rw [List.map_map]
  apply List.map_congr_left
  intro v _
  by_cases h : v.id = vid <;> simp [h]

theorem lookupVM_setPmId (vid : String) (pid : Int) (w : String) (vs : List VM) :
    lookupVM (setPmId vid pid vs) w =
      (lookupVM vs w).map (fun v => if v.id == vid then { v with pm_id := some pid } else v) := by
  unfold lookupVM setPmId
  rw [List.find?_map]
  have hp : ((fun (v : VM) => v.id == w) ∘ fun (v : VM) =>
      if v.id == vid then { v with pm_id := some pid } else v) = fun (v : VM) => v.id == w := by
    funext v
    by_cases hv : v.id = vid <;> simp [Function.comp, hv]
  rw [hp]

theorem lookupVMs_setPmId (vid : String) (pid : Int) (vs : List VM) (ids : List String) :
    lookupVMs (setPmId vid pid vs) ids =
      (lookupVMs vs ids).map (fun v => if v.id == vid then { v with pm_id := some pid } else v) := by
  unfold lookupVMs
  rw [List.map_filterMap]
  apply List.filterMap_congr
  intro w _
  exact lookupVM_setPmId vid pid w vs


theorem lookupVMs_setPmId_comm (vid : String) (pid : Int) (vs : List VM) (ids : List String) :
    lookupVMs (setPmId vid pid vs) ids = setPmId vid pid (lookupVMs vs ids) := by
  rw [lookupVMs_setPmId]
  rfl

theorem robust_setPmId (vid : String) (pid : Int) (vs : List VM) (G : ℕ) :
    robust_cpu_usage (setPmId vid pid vs) G = robust_cpu_usage vs G :=
  robust_cpu_usage_congr_attrs G (setPmId_map_u_c vid pid vs) (setPmId_map_u_r vid pid vs)

theorem pmOk_setPmId {all_vms : List VM} {G : ℕ} {pm : PM} (vid : String) (pid : Int)
    (h : pmOk all_vms G pm) : pmOk (setPmId vid pid all_vms) G pm := by
  unfold pmOk at h ⊢
  rw [lookupVMs_setPmId_comm, robust_setPmId, setPmId_map_mem]
  exact h

theorem can_place_iff {vm : VM} {pm : PM} {all_vms : List VM} {G : ℕ} :
    can_place_vm_on_pm vm pm all_vms G = true ↔
      robust_cpu_usage (lookupVMs all_vms pm.vms ++ [vm]) G ≤ pm.cpu_cap + eps ∧
        ((lookupVMs all_vms pm.vms ++ [vm]).map VM.mem).sum ≤ pm.mem_cap + eps := by
  unfold can_place_vm_on_pm
  dsimp only
  split_ifs with h1 h2
  · exact iff_of_false (by simp) (fun h => not_le.mpr h1 h.1)
  · exact iff_of_false (by simp) (fun h => not_le.mpr h2 h.2)
  · exact iff_of_true rfl ⟨not_lt.mp h1, not_lt.mp h2⟩

theorem pmViolations_eq_nil_iff {all_vms : List VM} {G : ℕ} {pm : PM} :
    pmViolations all_vms G pm = [] ↔ pmOk all_vms G pm := by
  unfold pmViolations pmOk
  dsimp only
  split_ifs with h1 h2 h3
  · exact iff_of_false (by simp) (fun h => not_le.mpr h1 h.1)
  · exact iff_of_false (by simp) (fun h => not_le.mpr h1 h.1)
  · exact iff_of_false (by simp) (fun h => not_le.mpr h3 h.2)
  · exact iff_of_true (by simp) ⟨not_lt.mp h1, not_lt.mp h3⟩

theorem check_feasibility_iff {G : ℕ} {st : SolverState} :
    (check_feasibility G st).1 = true ↔ ∀ pm ∈ st.pms, pmOk st.vms G pm := by
  unfold check_feasibility
  rw [List.isEmpty_iff, List.flatten_eq_nil_iff]
  constructor
  · intro h pm hpm
    exact pmViolations_eq_nil_iff.mp (h _ (List.mem_map_of_mem _ hpm))
  · intro h l hl
    obtain ⟨pm, hpm, rfl⟩ := List.mem_map.mp hl
    exact pmViolations_eq_nil_iff.mpr (h pm hpm)


/-- Feasibility of every PM of a list under one VM dictionary. -/
def AllOk (all_vms : List VM) (G : ℕ) (pms : List PM) : Prop :=
  ∀ pm ∈ pms, pmOk all_vms G pm

theorem NonnegVMs_lookupVMs {vms : List VM} (h : NonnegVMs vms) (ids : List String) :
    NonnegVMs (lookupVMs vms ids) := by
  intro v hv
  obtain ⟨w, _, hfind⟩ := List.mem_filterMap.mp hv
  exact h v (List.mem_of_find?_eq_some hfind)

theorem NonnegVMs_setPmId {vms : List VM} (vid : String) (pid : Int) (h : NonnegVMs vms) :
    NonnegVMs (setPmId vid pid vms) := by
  intro v hv
  obtain ⟨w, hw, rfl⟩ := List.mem_map.mp hv
  by_cases hid : w.id = vid
  · simpa [hid] using h w hw
  · simpa [hid] using h w hw

theorem lookupVMs_append (vms : List VM) (ids1 ids2 : List String) :
    lookupVMs vms (ids1 ++ ids2) = lookupVMs vms ids1 ++ lookupVMs vms ids2 := by
  unfold lookupVMs
  rw [List.filterMap_append]

theorem lookupVMs_sublist (vms : List VM) {ids1 ids2 : List String}
    (h : List.Sublist ids1 ids2) :
    List.Sublist (lookupVMs vms ids1) (lookupVMs vms ids2) :=
  List.Sublist.filterMap _ h

theorem pmOk_sub {vms : List VM} {G : ℕ} {pm : PM} (hpm : pmOk vms G pm)
    (h0 : NonnegVMs vms) {ids : List String} (hsub : List.Sublist ids pm.vms) :
    pmOk vms G { pm with vms := ids } := by
  unfold pmOk at hpm ⊢
  have hsubv := lookupVMs_sublist vms hsub
  have hnn := NonnegVMs_lookupVMs h0 pm.vms
  exact ⟨(robust_cpu_usage_mono_sublist hsubv hnn G).trans hpm.1,
    (memSum_mono_sublist hsubv hnn).trans hpm.2⟩

theorem lookupVMs_single {vms : List VM} {vid : String} {vm : VM}
    (h : lookupVM vms vid = some vm) : lookupVMs vms [vid] = [vm] := by
  unfold lookupVMs
  simp [List.filterMap_cons, h]

theorem pmOk_place {vms : List VM} {G : ℕ} {pm : PM} {vm : VM} {vid : String} (pid : Int)
    (hfind : lookupVM vms vid = some vm)
    (hcan : can_place_vm_on_pm vm pm vms G = true) :
    pmOk (setPmId vid pid vms) G { pm with vms := pm.vms ++ [vid], active := true } := by
  obtain ⟨hcpu, hmem⟩ := can_place_iff.mp hcan
  unfold pmOk
  dsimp only
  rw [lookupVMs_setPmId_comm, lookupVMs_append, lookupVMs_single hfind,
    robust_setPmId, setPmId_map_mem]
  exact ⟨hcpu, hmem⟩

theorem firstFit_spec {G : ℕ} {all_vms : List VM} {vm : VM} :
    ∀ {pms pms' : List PM} {pid : Int}, firstFit G all_vms vm pms = some (pid, pms') →
      ∃ pre pm post, pms = pre ++ pm :: post ∧
        pms' = pre ++ ({ pm with vms := pm.vms ++ [vm.id], active := true } :: post) ∧
        can_place_vm_on_pm vm pm all_vms G = true ∧ pid = pm.id := by
  intro pms
  induction pms with
  | nil => intro pms' pid h; simp [firstFit] at h
  | cons pm rest ih =>
    intro pms' pid h
    unfold firstFit at h
    by_cases hc : can_place_vm_on_pm vm pm all_vms G = true
    · rw [if_pos hc] at h
      simp only [Option.some.injEq, Prod.mk.injEq] at h
      exact ⟨[], pm, rest, rfl, by simp [← h.2], hc, h.1.symm⟩
    · rw [if_neg hc] at h
      obtain ⟨⟨pid0, pms0⟩, hf, hmap⟩ := Option.map_eq_some'.mp h
      obtain ⟨pre, pm0, post, hsplit, hout, hcan0, hpid0⟩ := ih hf
      simp only [Prod.mk.injEq] at hmap
      refine ⟨pm :: pre, pm0, post, by simp [hsplit], ?_, hcan0, hmap.1 ▸ hpid0⟩
      simp [← hmap.2, hout]


theorem lookupVM_id {vms : List VM} {vid : String} {vm : VM}
    (h : lookupVM vms vid = some vm) : vm.id = vid := by
  have hp := List.find?_some h
  simpa using hp

theorem placeQueue_preserves {G : ℕ} :
    ∀ (q : List String) (pms : List PM) (vms : List VM) {pms' : List PM} {vms' : List VM},
      NonnegVMs vms → AllOk vms G pms →
      placeQueue G q pms vms = some (pms', vms') →
      NonnegVMs vms' ∧ AllOk vms' G pms'
  | [], pms, vms, pms', vms', h0, hok, h => by
    simp only [placeQueue, Option.some.injEq, Prod.mk.injEq] at h
    obtain ⟨h1, h2⟩ := h
    subst h1
    subst h2
    exact ⟨h0, hok⟩
  | vid :: rest, pms, vms, pms', vms', h0, hok, h => by
    unfold placeQueue at h
    cases hfind : lookupVM vms vid with
    | none => rw [hfind] at h; cases h
    | some vm =>
      rw [hfind] at h
      dsimp only at h
      cases hff : firstFit G vms vm pms with
      | none => rw [hff] at h; cases h
      | some r =>
        obtain ⟨pid, pms1⟩ := r
        rw [hff] at h
        obtain ⟨pre, pm, post, hsplit, hout, hcan, hpid⟩ := firstFit_spec hff
        have hvmid : vm.id = vid := lookupVM_id hfind
        have h0' : NonnegVMs (setPmId vid pid vms) := NonnegVMs_setPmId vid pid h0
        have hok' : AllOk (setPmId vid pid vms) G pms1 := by
          intro p hp
          rw [hout] at hp
          rcases List.mem_append.mp hp with hpre | hpost
          · exact pmOk_setPmId vid pid (hok p (hsplit ▸ List.mem_append_left _ hpre))
          · rcases List.mem_cons.mp hpost with rfl | hpost2
            · subst hpid
              rw [hvmid]
              exact pmOk_place pm.id hfind hcan
            · exact pmOk_setPmId vid pid
                (hok p (hsplit ▸ List.mem_append_right _ (List.mem_cons_of_mem _ hpost2)))
        exact placeQueue_preserves rest pms1 (setPmId vid pid vms) h0' hok' h


theorem drain_pmOk {vms : List VM} {G : ℕ} {pm : PM} (tid : Int) (h : pmOk vms G pm)
    (h0 : NonnegVMs vms) :
    pmOk vms G (if pm.id == tid then { pm with vms := [] } else pm) := by
  split
  · exact pmOk_sub h h0 (List.nil_sublist _)
  · exact h

theorem sampleStep_pmOk {vms : List VM} {G : ℕ} {ratio : ℚ}
    {samp : Int → List String → ℕ → List String} {tid : Int} {pm : PM}
    (h : pmOk vms G pm) (h0 : NonnegVMs vms) :
    pmOk vms G (sampleStep ratio samp tid pm).1 := by
  unfold sampleStep
  split
  · exact h
  · exact pmOk_sub h h0 (List.filter_sublist _)

theorem single_iteration_fail {G : ℕ} {ratio : ℚ}
    {samp : Int → List String → ℕ → List String} {ded : List String → List String}
    {st st' : SolverState} (h : single_iteration G ratio samp ded st = (st', false)) :
    st' = st := by
  unfold single_iteration at h
  split at h
  · injection h with h1 _
    exact h1.symm
  · dsimp only at h
    split at h
    · injection h with h1 _
      exact h1.symm
    · injection h with _ h2
      exact Bool.noConfusion h2

theorem single_iteration_succ {G : ℕ} {ratio : ℚ}
    {samp : Int → List String → ℕ → List String} {ded : List String → List String}
    {st st' : SolverState} (h : single_iteration G ratio samp ded st = (st', true)) :
    st'.migration_count = st.migration_count + countMoved st.vms st'.vms := by
  unfold single_iteration at h
  split at h
  · injection h with _ h2
    exact Bool.noConfusion h2
  · dsimp only at h
    split at h
    · injection h with _ h2
      exact Bool.noConfusion h2
    · injection h with h1 _
      subst h1
      rfl

theorem single_iteration_preserves {G : ℕ} {ratio : ℚ}
    {samp : Int → List String → ℕ → List String} {ded : List String → List String}
    {st st' : SolverState} {b : Bool}
    (h0 : NonnegVMs st.vms) (hok : AllOk st.vms G st.pms)
    (h : single_iteration G ratio samp ded st = (st', b)) :
    NonnegVMs st'.vms ∧ AllOk st'.vms G st'.pms := by
  unfold single_iteration at h
  split at h
  · injection h with h1 _
    subst h1
    exact ⟨h0, hok⟩
  · rename_i tgt hsel
    dsimp only at h
    split at h
    · injection h with h1 _
      subst h1
      exact ⟨h0, hok⟩
    · rename_i pms3 vms3 hpq
      injection h with h1 _
      subst h1
      have hokP : AllOk st.vms G
          (((st.pms.map fun pm => if pm.id == tgt.id then { pm with vms := [] } else pm).map
            (sampleStep ratio samp tgt.id)).map Prod.fst) := by
        intro p hp
        simp only [List.map_map, List.mem_map, Function.comp] at hp
        obtain ⟨pm, hpm, rfl⟩ := hp
        exact sampleStep_pmOk (drain_pmOk tgt.id (hok pm hpm) h0) h0
      obtain ⟨hnn3, hok3⟩ := placeQueue_preserves _ _ _ h0 hokP hpq
      refine ⟨hnn3, ?_⟩
      intro p hp
      simp only [List.mem_map] at hp
      obtain ⟨q, hq, rfl⟩ := hp
      exact (hok3 q hq : pmOk vms3 G q)


theorem runLoop_preserves {G : ℕ} {ratio : ℚ}
    {samp : ℕ → Int → List String → ℕ → List String} {ded : ℕ → List String → List String} :
    ∀ (fuel idx : ℕ) (st : SolverState) (b : Bool),
      NonnegVMs st.vms → AllOk st.vms G st.pms →
      NonnegVMs (runLoop G ratio samp ded fuel idx st b).1.vms ∧
        AllOk (runLoop G ratio samp ded fuel idx st b).1.vms G
          (runLoop G ratio samp ded fuel idx st b).1.pms
  | 0, idx, st, b, h0, hok => ⟨h0, hok⟩
  | fuel + 1, idx, st, b, h0, hok => by
    unfold runLoop
    dsimp only
    obtain ⟨hn, ha⟩ := @single_iteration_preserves G ratio (samp idx) (ded idx) st
      (single_iteration G ratio (samp idx) (ded idx) st).1
      (single_iteration G ratio (samp idx) (ded idx) st).2 h0 hok rfl
    split
    · exact runLoop_preserves fuel (idx + 1) _ true hn ha
    · exact ⟨hn, ha⟩

/-- The number of VM reassignments one trace entry contributes when its
iteration commits. -/
def iterMoved (G : ℕ) (ratio : ℚ) (samp : ℕ → Int → List String → ℕ → List String)
    (ded : ℕ → List String → List String) (e : ℕ × SolverState × Bool) : ℕ :=
  countMoved e.2.1.vms (single_iteration G ratio (samp e.1) (ded e.1) e.2.1).1.vms

theorem runLoop_trace_mc {G : ℕ} {ratio : ℚ}
    {samp : ℕ → Int → List String → ℕ → List String} {ded : ℕ → List String → List String} :
    ∀ (fuel idx : ℕ) (st : SolverState) (b : Bool),
      (runLoop G ratio samp ded fuel idx st b).1.migration_count =
        st.migration_count +
          (((runTrace G ratio samp ded fuel idx st).filter (fun e => e.2.2)).map
            (iterMoved G ratio samp ded)).sum
  | 0, idx, st, b => by simp [runLoop, runTrace]
  | fuel + 1, idx, st, b => by
    unfold runLoop runTrace
    dsimp only
    cases hr : (single_iteration G ratio (samp idx) (ded idx) st).2 with
    | false =>
      have hst : (single_iteration G ratio (samp idx) (ded idx) st).1 = st :=
        single_iteration_fail (by rw [← hr])
      simp [hr, hst]
    | true =>
      have hmc : (single_iteration G ratio (samp idx) (ded idx) st).1.migration_count =
          st.migration_count +
            countMoved st.vms (single_iteration G ratio (samp idx) (ded idx) st).1.vms :=
        single_iteration_succ (by rw [← hr])
      have ih := @runLoop_trace_mc G ratio samp ded fuel (idx + 1)
        (single_iteration G ratio (samp idx) (ded idx) st).1 true
      simp only [hr, if_true, List.filter_cons, List.map_cons, List.sum_cons]
      rw [ih, hmc]
      dsimp [iterMoved]
      omega

theorem runTrace_length_le {G : ℕ} {ratio : ℚ}
    {samp : ℕ → Int → List String → ℕ → List String} {ded : ℕ → List String → List String} :
    ∀ (fuel idx : ℕ) (st : SolverState),
      (runTrace G ratio samp ded fuel idx st).length ≤ fuel
  | 0, idx, st => le_refl 0
  | fuel + 1, idx, st => by
    unfold runTrace
    dsimp only
    split
    · simpa using Nat.succ_le_succ (runTrace_length_le fuel (idx + 1) _)
    · simp

theorem runTrace_shape {G : ℕ} {ratio : ℚ}
    {samp : ℕ → Int → List String → ℕ → List String} {ded : ℕ → List String → List String} :
    ∀ (fuel idx : ℕ) (st : SolverState),
      ∃ n, (runTrace G ratio samp ded fuel idx st).map (fun e => e.2.2) =
          List.replicate n true ∨
        (runTrace G ratio samp ded fuel idx st).map (fun e => e.2.2) =
          List.replicate n true ++ [false]
  | 0, idx, st => ⟨0, Or.inl rfl⟩
  | fuel + 1, idx, st => by
    unfold runTrace
    dsimp only
    split
    · obtain ⟨n, hn⟩ := @runTrace_shape G ratio samp ded
        fuel (idx + 1) (single_iteration G ratio (samp idx) (ded idx) st).1
      cases hn with
      | inl h => exact ⟨n + 1, Or.inl (by simp [h, List.replicate_succ])⟩
      | inr h => exact ⟨n + 1, Or.inr (by simp [h, List.replicate_succ])⟩
    · exact ⟨0, Or.inr (by simp)⟩

theorem runLoop_flag {G : ℕ} {ratio : ℚ}
    {samp : ℕ → Int → List String → ℕ → List String} {ded : ℕ → List String → List String} :
    ∀ (fuel idx : ℕ) (st : SolverState) (b : Bool),
      (runLoop G ratio samp ded fuel idx st b).2 =
        (b || (runTrace G ratio samp ded fuel idx st).any (fun e => e.2.2))
  | 0, idx, st, b => by simp [runLoop, runTrace]
  | fuel + 1, idx, st, b => by
    unfold runLoop runTrace
    dsimp only
    cases hr : (single_iteration G ratio (samp idx) (ded idx) st).2 with
    | false => simp [hr]
    | true =>
      have ih := @runLoop_flag G ratio samp ded fuel (idx + 1)
        (single_iteration G ratio (samp idx) (ded idx) st).1 true
      simp [hr, ih]


theorem foldlMin_spec (key : PM → ℕ) :
    ∀ (xs : List PM) (x r : PM),
      xs.foldl (fun best pm => if key pm < key best then pm else best) x = r →
      (r = x ∧ ∀ pm ∈ xs, key x ≤ key pm) ∨
        (∃ l1 l2, xs = l1 ++ r :: l2 ∧ key r < key x ∧
          (∀ pm ∈ l1, key r < key pm) ∧ (∀ pm ∈ l2, key r ≤ key pm))
  | [], x, r, h => Or.inl ⟨h.symm, by simp⟩
  | y :: ys, x, r, h => by
    simp only [List.foldl_cons] at h
    by_cases hy : key y < key x
    · rw [if_pos hy] at h
      rcases foldlMin_spec key ys y r h with ⟨rfl, hall⟩ | ⟨l1, l2, hsplit, hlt, h1, h2⟩
      · exact Or.inr ⟨[], ys, rfl, hy, by simp, hall⟩
      · refine Or.inr ⟨y :: l1, l2, by simp [hsplit], lt_trans hlt hy, ?_, h2⟩
        intro pm hpm
        rcases List.mem_cons.mp hpm with rfl | hpm2
        · exact hlt
        · exact h1 pm hpm2
    · rw [if_neg hy] at h
      have hxy : key x ≤ key y := not_lt.mp hy
      rcases foldlMin_spec key ys x r h with ⟨rfl, hall⟩ | ⟨l1, l2, hsplit, hlt, h1, h2⟩
      · refine Or.inl ⟨rfl, ?_⟩
        intro pm hpm
        rcases List.mem_cons.mp hpm with rfl | hpm2
        · exact hxy
        · exact hall pm hpm2
      · refine Or.inr ⟨y :: l1, l2, by simp [hsplit], hlt, ?_, h2⟩
        intro pm hpm
        rcases List.mem_cons.mp hpm with rfl | hpm2
        · exact lt_of_lt_of_le hlt hxy
        · exact h1 pm hpm2

theorem pyMinBy_spec {key : PM → ℕ} {l : List PM} {t : PM} (h : pyMinBy key l = some t) :
    ∃ l1 l2, l = l1 ++ t :: l2 ∧ (∀ pm ∈ l1, key t < key pm) ∧
      (∀ pm ∈ l2, key t ≤ key pm) := by
  cases l with
  | nil => cases h
  | cons x xs =>
    have hf : xs.foldl (fun best pm => if key pm < key best then pm else best) x = t :=
      Option.some.inj h
    rcases foldlMin_spec key xs x t hf with ⟨rfl, hall⟩ | ⟨l1, l2, hsplit, hlt, h1, h2⟩
    · exact ⟨[], xs, rfl, by simp, hall⟩
    · refine ⟨x :: l1, l2, by simp [hsplit], ?_, h2⟩
      intro pm hpm
      rcases List.mem_cons.mp hpm with rfl | hpm2
      · exact hlt
      · exact h1 pm hpm2

theorem pyMinBy_none_iff {key : PM → ℕ} {l : List PM} : pyMinBy key l = none ↔ l = [] := by
  cases l <;> simp [pyMinBy]

theorem selectTarget_none_iff {pms : List PM} :
    selectTarget pms = none ↔ ∀ pm ∈ pms, pm.vms = [] := by
  unfold selectTarget
  rw [pyMinBy_none_iff, List.filter_eq_nil_iff]
  simp [List.isEmpty_iff]

theorem selectTarget_spec {pms : List PM} {t : PM} (h : selectTarget pms = some t) :
    ∃ l1 l2, pms.filter (fun pm => !pm.vms.isEmpty) = l1 ++ t :: l2 ∧
      (∀ pm ∈ l1, t.vms.length < pm.vms.length) ∧
      (∀ pm ∈ l2, t.vms.length ≤ pm.vms.length) :=
  pyMinBy_spec h

instance (all_vms : List VM) : IsTotal String (queueLe all_vms) :=
  ⟨fun a b => le_total (umaxOf all_vms b) (umaxOf all_vms a)⟩

instance (all_vms : List VM) : IsTrans String (queueLe all_vms) :=
  ⟨fun _ _ _ h1 h2 => le_trans h2 h1⟩

theorem sortQueue_sorted (all_vms : List VM) (q : List String) :
    List.Sorted (queueLe all_vms) (sortQueue all_vms q) :=
  List.sorted_insertionSort _ q

theorem sortQueue_perm (all_vms : List VM) (q : List String) :
    List.Perm (sortQueue all_vms q) q :=
  List.perm_insertionSort _ q


theorem pyDictVMs_fresh :
    ∀ (vms acc : List VM), ((acc ++ vms).map VM.id).Nodup →
      vms.foldl pyDictInsertVM acc = acc ++ vms
  | [], acc, _ => by simp
  | vm :: rest, acc, h => by
    have hfresh : ¬acc.any (fun v => v.id == vm.id) = true := by
      intro hany
      obtain ⟨v, hv, hid⟩ := List.any_eq_true.mp hany
      have hmemids : vm.id ∈ acc.map VM.id := by
        rw [← (eq_of_beq hid)]
        exact List.mem_map_of_mem VM.id hv
      have hd := (List.nodup_append.mp (by simpa using h)).2.2
      exact hd hmemids (by simp)
    have hstep : pyDictInsertVM acc vm = acc ++ [vm] := by
      unfold pyDictInsertVM
      rw [if_neg hfresh]
    have hrec := pyDictVMs_fresh rest (acc ++ [vm]) (by simpa using h)
    simp only [List.foldl_cons, hstep, hrec, List.append_assoc, List.singleton_append]

theorem pyDictVMs_nodup {vms : List VM} (h : (vms.map VM.id).Nodup) : pyDictVMs vms = vms := by
  unfold pyDictVMs
  simpa using pyDictVMs_fresh vms [] (by simpa using h)

theorem pm_update_ids (pl : List PM) (vid : String) (pid p : Int) :
    (∀ pm ∈ pl.map (fun pm =>
        if pm.id == pid then { pm with vms := pm.vms ++ [vid] } else pm), pm.id ≠ p) ↔
      ∀ pm ∈ pl, pm.id ≠ p := by
  constructor
  · intro h pm hpm
    have hm := h _ (List.mem_map_of_mem _ hpm)
    by_cases hid : pm.id = pid
    · simpa [hid] using hm
    · simpa [hid] using hm
  · intro h pm hpm
    obtain ⟨q, hq, rfl⟩ := List.mem_map.mp hpm
    by_cases hid : q.id = pid
    · simpa [hid] using h q hq
    · simpa [hid] using h q hq

theorem syncVMs_error_iff :
    ∀ (vl : List VM) (pl : List PM),
      (∃ e, syncVMs vl pl = .error e) ↔
        ∃ vm ∈ vl, ∃ p, vm.pm_id = some p ∧ ∀ pm ∈ pl, pm.id ≠ p
  | [], pl => by simp [syncVMs]
  | vm :: rest, pl => by
    unfold syncVMs
    cases hpm : vm.pm_id with
    | none =>
      dsimp only
      rw [syncVMs_error_iff rest pl]
      constructor
      · intro ⟨v, hv, hp⟩
        exact ⟨v, List.mem_cons_of_mem vm hv, hp⟩
      · intro ⟨v, hv, p, hvp, hall⟩
        rcases List.mem_cons.mp hv with rfl | hv2
        · rw [hpm] at hvp
          cases hvp
        · exact ⟨v, hv2, p, hvp, hall⟩
    | some pid =>
      dsimp only
      by_cases hmem : pl.any (fun pm => pm.id == pid) = true
      · rw [if_pos hmem]
        rw [syncVMs_error_iff rest _]
        obtain ⟨pm0, hpm0, hid0⟩ := List.any_eq_true.mp hmem
        constructor
        · intro ⟨v, hv, p, hvp, hall⟩
          exact ⟨v, List.mem_cons_of_mem vm hv, p, hvp, (pm_update_ids pl vm.id pid p).mp hall⟩
        · intro ⟨v, hv, p, hvp, hall⟩
          rcases List.mem_cons.mp hv with rfl | hv2
          · rw [hpm] at hvp
            have hpp : p = pid := by
              have := Option.some.inj hvp
              exact this.symm
            exact absurd (eq_of_beq hid0) (by simpa [hpp] using hall pm0 hpm0)
          · exact ⟨v, hv2, p, hvp, (pm_update_ids pl vm.id pid p).mpr hall⟩
      · rw [if_neg hmem]
        constructor
        · intro _
          refine ⟨vm, List.mem_cons_self vm rest, pid, hpm, ?_⟩
          intro pm hpmm hid
          exact hmem (List.any_eq_true.mpr ⟨pm, hpmm, by simp [hid]⟩)
        · intro _
          exact ⟨_, rfl⟩

theorem pyDictInsertPM_ids (acc : List PM) (pm : PM) (p : Int) :
    (∃ q ∈ pyDictInsertPM acc pm, q.id = p) ↔ (∃ q ∈ acc, q.id = p) ∨ pm.id = p := by
  unfold pyDictInsertPM
  by_cases hany : acc.any (fun q => q.id == pm.id) = true
  · rw [if_pos hany]
    obtain ⟨q0, hq0, hid0⟩ := List.any_eq_true.mp hany
    constructor
    · intro ⟨q, hq, hqp⟩
      obtain ⟨q1, hq1, rfl⟩ := List.mem_map.mp hq
      by_cases h1 : q1.id = pm.id
      · left
        exact ⟨q1, hq1, by simpa [h1] using hqp⟩
      · left
        exact ⟨q1, hq1, by simpa [h1] using hqp⟩
    · intro h
      rcases h with ⟨q, hq, hqp⟩ | hpm
      · by_cases h1 : q.id = pm.id
        · refine ⟨pm, ?_, by rw [← h1, hqp]⟩
          refine List.mem_map.mpr ⟨q, hq, ?_⟩
          simp [h1]
        · refine ⟨q, ?_, hqp⟩
          refine List.mem_map.mpr ⟨q, hq, ?_⟩
          simp [h1]
      · refine ⟨pm, ?_, hpm⟩
        refine List.mem_map.mpr ⟨q0, hq0, ?_⟩
        simp [eq_of_beq hid0]
  · rw [if_neg hany]
    constructor
    · intro ⟨q, hq, hqp⟩
      rcases List.mem_append.mp hq with hq1 | hq2
      · exact Or.inl ⟨q, hq1, hqp⟩
      · have hq3 : q = pm := List.mem_singleton.mp hq2
        subst hq3
        exact Or.inr hqp
    · intro h
      rcases h with ⟨q, hq, hqp⟩ | hpm
      · exact ⟨q, List.mem_append_left _ hq, hqp⟩
      · exact ⟨pm, List.mem_append_right _ (by simp), hpm⟩

theorem pyDictPMs_ids_aux :
    ∀ (pms acc : List PM) (p : Int),
      (∃ q ∈ pms.foldl pyDictInsertPM acc, q.id = p) ↔
        (∃ q ∈ acc, q.id = p) ∨ ∃ q ∈ pms, q.id = p
  | [], acc, p => by simp
  | pm :: rest, acc, p => by
    simp only [List.foldl_cons]
    rw [pyDictPMs_ids_aux rest (pyDictInsertPM acc pm) p, pyDictInsertPM_ids]
    constructor
    · intro h
      rcases h with (h1 | h2) | h3
      · exact Or.inl h1
      · exact Or.inr ⟨pm, List.mem_cons_self pm rest, h2⟩
      · obtain ⟨q, hq, hqp⟩ := h3
        exact Or.inr ⟨q, List.mem_cons_of_mem pm hq, hqp⟩
    · intro h
      rcases h with h1 | ⟨q, hq, hqp⟩
      · exact Or.inl (Or.inl h1)
      · rcases List.mem_cons.mp hq with rfl | hq2
        · exact Or.inl (Or.inr hqp)
        · exact Or.inr ⟨q, hq2, hqp⟩

theorem pyDictPMs_ids (pms : List PM) (p : Int) :
    (∃ q ∈ pyDictPMs pms, q.id = p) ↔ ∃ q ∈ pms, q.id = p := by
  unfold pyDictPMs
  rw [pyDictPMs_ids_aux pms [] p]
  simp


theorem sync_error_iff (pms : List PM) (vms : List VM) :
    (∃ e, sync_vm_pm_lists pms vms = .error e) ↔
      ∃ vm ∈ vms, ∃ p, vm.pm_id = some p ∧ ∀ pm ∈ pms, pm.id ≠ p := by
  have hmatch : (∃ e, sync_vm_pm_lists pms vms = .error e) ↔
      (∃ e, syncVMs vms (pms.map fun pm => { pm with vms := [] }) = .error e) := by
    unfold sync_vm_pm_lists
    cases syncVMs vms (pms.map fun pm => { pm with vms := [] }) with
    | error e => simp
    | ok pl => simp
  rw [hmatch, syncVMs_error_iff]
  have hids : ∀ p, (∀ pm ∈ pms.map (fun pm => { pm with vms := ([] : List String) }), pm.id ≠ p)
      ↔ ∀ pm ∈ pms, pm.id ≠ p := by
    intro p
    constructor
    · intro h pm hpm
      exact h { pm with vms := [] } (List.mem_map_of_mem _ hpm)
    · intro h q hq
      obtain ⟨pm, hpm, rfl⟩ := List.mem_map.mp hq
      exact h pm hpm
  constructor
  · intro ⟨vm, hvm, p, hp, hall⟩
    exact ⟨vm, hvm, p, hp, (hids p).mp hall⟩
  · intro ⟨vm, hvm, p, hp, hall⟩
    exact ⟨vm, hvm, p, hp, (hids p).mpr hall⟩

theorem mkSolver_error_iff {pms : List PM} {vms : List VM} (h : (vms.map VM.id).Nodup) :
    (∃ e, mkSolver pms vms = .error e) ↔
      ∃ vm ∈ vms, ∃ p, vm.pm_id = some p ∧ ∀ pm ∈ pms, pm.id ≠ p := by
  have hmatch : (∃ e, mkSolver pms vms = .error e) ↔
      (∃ e, sync_vm_pm_lists (pyDictPMs pms) (pyDictVMs vms) = .error e) := by
    unfold mkSolver
    dsimp only
    cases sync_vm_pm_lists (pyDictPMs pms) (pyDictVMs vms) with
    | error e => simp
    | ok pl => simp
  rw [hmatch, pyDictVMs_nodup h, sync_error_iff]
  have hfa : ∀ p, (∀ pm ∈ pyDictPMs pms, pm.id ≠ p) ↔ ∀ pm ∈ pms, pm.id ≠ p := by
    intro p
    constructor
    · intro hall pm hpm hc
      obtain ⟨q, hq, hqp⟩ := (pyDictPMs_ids pms p).mpr ⟨pm, hpm, hc⟩
      exact hall q hq hqp
    · intro hall q hq hqc
      obtain ⟨pm, hpm, hpmp⟩ := (pyDictPMs_ids pms p).mp ⟨q, hq, hqc⟩
      exact hall pm hpm hpmp
  constructor
  · intro ⟨vm, hvm, p, hp, hall⟩
    exact ⟨vm, hvm, p, hp, (hfa p).mp hall⟩
  · intro ⟨vm, hvm, p, hp, hall⟩
    exact ⟨vm, hvm, p, hp, (hfa p).mpr hall⟩


theorem robust_eq_formula (vms : List VM) (G : ℕ) :
    robust_cpu_usage vms G = (vms.map VM.u_c).sum + topSum G (vms.map VM.u_r) := by
  unfold robust_cpu_usage
  split
  · rename_i he
    have h1 : vms = [] := List.isEmpty_iff.mp he
    subst h1
    simp [topSum, sortDesc, List.insertionSort]
  · rfl

theorem topSum_largest (l : List ℚ) (G : ℕ) (h : G ≤ l.length) :
    ∃ sel rest, List.Perm l (sel ++ rest) ∧ sel.length = G ∧
      (∀ x ∈ sel, ∀ y ∈ rest, y ≤ x) ∧ topSum G l = sel.sum := by
  refine ⟨(sortDesc l).take G, (sortDesc l).drop G, ?_, ?_, ?_, rfl⟩
  · rw [List.take_append_drop]
    exact (sortDesc_perm l).symm
  · rw [List.length_take]
    exact min_eq_left (by rw [(sortDesc_perm l).length_eq]; exact h)
  · have hs := sortDesc_sorted l
    rw [← List.take_append_drop G (sortDesc l)] at hs
    have hp := (List.pairwise_append.mp hs).2.2
    intro x hx y hy
    exact hp x hx y hy

theorem robust_perm_congr {l1 l2 : List VM} (G : ℕ) (h : List.Perm l1 l2) :
    robust_cpu_usage l1 G = robust_cpu_usage l2 G := by
  rw [robust_eq_formula, robust_eq_formula]
  have hc : ((l1.map VM.u_c).sum : ℚ) = (l2.map VM.u_c).sum := (h.map VM.u_c).sum_eq
  have hr : topSum G (l1.map VM.u_r) = topSum G (l2.map VM.u_r) := by
    unfold topSum
    rw [sortDesc_congr (h.map VM.u_r)]
  rw [hc, hr]


/-- C1: if a single consolidation iteration fails, the hosts' resident
lists, every VM's host assignment, and the migration counter are exactly
equal to their pre-iteration values (the whole state is restored), and the
iteration reports failure. -/
theorem C1_rollback_exact (G : ℕ) (ratio : ℚ)
    (samp : Int → List String → ℕ → List String) (ded : List String → List String)
    (st : SolverState) (h : (single_iteration G ratio samp ded st).2 = false) :
    (single_iteration G ratio samp ded st).1.pms.map PM.vms = st.pms.map PM.vms ∧
    (single_iteration G ratio samp ded st).1.vms.map VM.pm_id = st.vms.map VM.pm_id ∧
    (single_iteration G ratio samp ded st).1.migration_count = st.migration_count ∧
    (single_iteration G ratio samp ded st).1 = st := by
  have hst : (single_iteration G ratio samp ded st).1 = st :=
    single_iteration_fail (by rw [← h])
  rw [hst]
  exact ⟨rfl, rfl, rfl, rfl⟩

/-- Witness for C1: on a one-host state whose host has zero memory capacity
the iteration fails and the state is restored exactly. -/
theorem C1_rollback_exact_witness :
    (single_iteration 1 (15/100) (sampTake 0) (dedDedup 0) stF).1.pms.map PM.vms =
        stF.pms.map PM.vms ∧
    (single_iteration 1 (15/100) (sampTake 0) (dedDedup 0) stF).1.vms.map VM.pm_id =
        stF.vms.map VM.pm_id ∧
    (single_iteration 1 (15/100) (sampTake 0) (dedDedup 0) stF).1.migration_count =
        stF.migration_count ∧
    (single_iteration 1 (15/100) (sampTake 0) (dedDedup 0) stF).1 = stF :=
  C1_rollback_exact 1 (15/100) (sampTake 0) (dedDedup 0) stF (by
    norm_num [single_iteration, selectTarget, pyMinBy, sampleStep, sampleK, sortQueue,
      List.insertionSort, List.orderedInsert, queueLe, umaxOf, lookupVM, lookupVMs,
      placeQueue, firstFit, can_place_vm_on_pm, robust_cpu_usage, topSum, sortDesc,
      setPmId, countMoved, eps, stF, vmF, pmF, sampTake, dedDedup,
      List.dedup_cons_of_not_mem, List.find?_cons, List.filterMap_cons])

/-- C2: on inputs whose VMs all have nonnegative center, radius and memory,
if the audit finds no violation before `run()`, it finds none after
`run()` either, for every sampling and set-iteration behaviour. -/
theorem C2_feasibility_preserved (G : ℕ) (ratio : ℚ) (mi : ℕ)
    (samp : ℕ → Int → List String → ℕ → List String) (ded : ℕ → List String → List String)
    (st : SolverState) (h0 : NonnegVMs st.vms) (hfeas : (check_feasibility G st).1 = true) :
    (check_feasibility G (run G ratio mi samp ded st).1).1 = true := by
  have hok := check_feasibility_iff.mp hfeas
  obtain ⟨_, hall⟩ := @runLoop_preserves G ratio samp ded mi 0 st false h0 hok
  exact check_feasibility_iff.mpr hall

/-- Witness for C2: the one-host one-VM state is nonnegative and feasible,
and stays feasible after a run. -/
theorem C2_feasibility_preserved_witness :
    (check_feasibility 1 (run 1 (15/100) 1 sampTake dedDedup st0).1).1 = true :=
  C2_feasibility_preserved 1 (15/100) 1 sampTake dedDedup st0
    (by
      intro v hv
      simp only [st0, vmA, List.mem_singleton] at hv
      subst hv
      norm_num)
    (by
      norm_num [check_feasibility, pmViolations, lookupVMs, lookupVM, robust_cpu_usage,
        topSum, sortDesc, List.insertionSort, List.orderedInsert, eps, st0, pmA, vmA,
        List.find?_cons, List.filterMap_cons])

/-- C3: `robust_cpu_usage` returns 0 on the empty collection, is invariant
under reordering (hence independent of which equal-radius VM is selected),
and for a budget `G` within the population equals the sum of all centers
plus the sum of a size-`G` selection of radii dominating all remaining
radii. -/
theorem C3_robust_evaluator_spec :
    (∀ G : ℕ, robust_cpu_usage [] G = 0) ∧
    (∀ (l1 l2 : List VM) (G : ℕ), List.Perm l1 l2 →
      robust_cpu_usage l1 G = robust_cpu_usage l2 G) ∧
    (∀ (vms : List VM) (G : ℕ), G ≤ vms.length →
      ∃ sel rest, List.Perm (vms.map VM.u_r) (sel ++ rest) ∧ sel.length = G ∧
        (∀ x ∈ sel, ∀ y ∈ rest, y ≤ x) ∧
        robust_cpu_usage vms G = (vms.map VM.u_c).sum + sel.sum) := by
  refine ⟨fun G => rfl, fun l1 l2 G h => robust_perm_congr G h, ?_⟩
  intro vms G hG
  obtain ⟨sel, rest, hperm, hlen, hdom, hsum⟩ := topSum_largest (vms.map VM.u_r) G
    (by simpa using hG)
  exact ⟨sel, rest, hperm, hlen, hdom, by rw [robust_eq_formula, hsum]⟩

/-- Witness for C3: reorder invariance and the top-radius characterisation
at a concrete two-VM collection with budget 1. -/
theorem C3_robust_evaluator_spec_witness :
    robust_cpu_usage [vmQa, vmQb] 1 = robust_cpu_usage [vmQb, vmQa] 1 ∧
    (∃ sel rest, List.Perm ([vmQa, vmQb].map VM.u_r) (sel ++ rest) ∧ sel.length = 1 ∧
      (∀ x ∈ sel, ∀ y ∈ rest, y ≤ x) ∧
      robust_cpu_usage [vmQa, vmQb] 1 = ([vmQa, vmQb].map VM.u_c).sum + sel.sum) :=
  ⟨C3_robust_evaluator_spec.2.1 [vmQa, vmQb] [vmQb, vmQa] 1 (List.Perm.swap vmQb vmQa []),
    C3_robust_evaluator_spec.2.2 [vmQa, vmQb] 1 (by simp)⟩

/-- C4: after `run()`, the migration counter equals the sum, over exactly
the committed iterations of the trace, of the number of VMs whose
assignment at that iteration's commit differs from the pre-iteration
snapshot; rolled-back iterations contribute nothing. -/
theorem C4_migration_accounting (G : ℕ) (ratio : ℚ) (mi : ℕ)
    (samp : ℕ → Int → List String → ℕ → List String) (ded : ℕ → List String → List String)
    (st : SolverState) (h : st.migration_count = 0) :
    (run G ratio mi samp ded st).1.migration_count =
      (((runTrace G ratio samp ded mi 0 st).filter (fun e => e.2.2)).map
        (iterMoved G ratio samp ded)).sum := by
  have hmc := @runLoop_trace_mc G ratio samp ded mi 0 st false
  rw [h] at hmc
  simpa [run] using hmc

/-- Witness for C4: the accounting identity evaluated on the concrete
one-host state with a fresh counter. -/
theorem C4_migration_accounting_witness :
    (run 1 (15/100) 1 sampTake dedDedup st0).1.migration_count =
      (((runTrace 1 (15/100) sampTake dedDedup 1 0 st0).filter (fun e => e.2.2)).map
        (iterMoved 1 (15/100) sampTake dedDedup)).sum :=
  C4_migration_accounting 1 (15/100) 1 sampTake dedDedup st0 rfl

/-- C5: `run()` executes at most `max_iter` iterations, only the last trace
entry can be a failure (the loop stops at the first failed iteration), and
`run()` returns true exactly when some executed iteration succeeded. -/
theorem C5_run_contract (G : ℕ) (ratio : ℚ) (mi : ℕ)
    (samp : ℕ → Int → List String → ℕ → List String) (ded : ℕ → List String → List String)
    (st : SolverState) :
    (runTrace G ratio samp ded mi 0 st).length ≤ mi ∧
    (∃ n, (runTrace G ratio samp ded mi 0 st).map (fun e => e.2.2) = List.replicate n true ∨
      (runTrace G ratio samp ded mi 0 st).map (fun e => e.2.2) =
        List.replicate n true ++ [false]) ∧
    ((run G ratio mi samp ded st).2 = true ↔
      true ∈ (runTrace G ratio samp ded mi 0 st).map (fun e => e.2.2)) := by
  refine ⟨@runTrace_length_le G ratio samp ded mi 0 st, @runTrace_shape G ratio samp ded mi 0 st, ?_⟩
  have hf := @runLoop_flag G ratio samp ded mi 0 st false
  rw [show (run G ratio mi samp ded st).2 = (runLoop G ratio samp ded mi 0 st false).2 from rfl,
    hf, Bool.false_or, List.any_eq_true]
  constructor
  · intro ⟨e, he, hee⟩
    exact List.mem_map.mpr ⟨e, he, hee⟩
  · intro hm
    obtain ⟨e, he, hee⟩ := List.mem_map.mp hm
    exact ⟨e, he, hee⟩


/-- Counterexample for C6: with hosts supplied in the order [id 5, id 2],
both holding one VM, the code's `min` keeps the first-seen host (id 5),
while the claim's lowest-identifier tie-break names id 2. -/
theorem C6_counterexample :
    selectTarget [pmX, pmY] ≠ specTarget [pmX, pmY] ∧
    (selectTarget [pmX, pmY]).map PM.id = some 5 ∧
    (specTarget [pmX, pmY]).map PM.id = some 2 ∧
    pmX.vms.length = pmY.vms.length := by
  refine ⟨?_, ?_, ?_, rfl⟩
  · norm_num [selectTarget, specTarget, pyMinBy, pmX, pmY]
  · norm_num [selectTarget, pyMinBy, pmX, pmY]
  · norm_num [specTarget, pmX, pmY]

/-- C6 (amended): the drained target is the first host, in host-dictionary
insertion order, among hosts with at least one VM attaining the minimal
resident count (ties broken by position, not by lowest identifier); if no
host has any VM the iteration fails immediately with the state unchanged. -/
theorem C6_target_selection :
    (∀ pms : List PM, (selectTarget pms = none ↔ ∀ pm ∈ pms, pm.vms = [])) ∧
    (∀ (pms : List PM) (t : PM), selectTarget pms = some t →
      t ∈ pms ∧ t.vms ≠ [] ∧
      (∀ pm ∈ pms, pm.vms ≠ [] → t.vms.length ≤ pm.vms.length) ∧
      ∃ l1 l2, pms.filter (fun pm => !pm.vms.isEmpty) = l1 ++ t :: l2 ∧
        ∀ pm ∈ l1, t.vms.length < pm.vms.length) ∧
    (∀ (G : ℕ) (ratio : ℚ) (samp : Int → List String → ℕ → List String)
      (ded : List String → List String) (st : SolverState),
      (∀ pm ∈ st.pms, pm.vms = []) → single_iteration G ratio samp ded st = (st, false)) := by
  refine ⟨fun pms => selectTarget_none_iff, ?_, ?_⟩
  · intro pms t h
    obtain ⟨l1, l2, hsplit, hlt, hle⟩ := selectTarget_spec h
    have htf : t ∈ pms.filter (fun pm => !pm.vms.isEmpty) := by
      rw [hsplit]
      exact List.mem_append_right _ (List.mem_cons_self t l2)
    have htmem : t ∈ pms := List.mem_of_mem_filter htf
    have htne : t.vms ≠ [] := by
      have hof := List.of_mem_filter htf
      simpa [List.isEmpty_iff] using hof
    refine ⟨htmem, htne, ?_, l1, l2, hsplit, hlt⟩
    intro pm hpm hne
    have hpmf : pm ∈ pms.filter (fun pm => !pm.vms.isEmpty) :=
      List.mem_filter.mpr ⟨hpm, by simpa [List.isEmpty_iff] using hne⟩
    rw [hsplit] at hpmf
    rcases List.mem_append.mp hpmf with h1 | h2
    · exact le_of_lt (hlt pm h1)
    · rcases List.mem_cons.mp h2 with rfl | h3
      · exact le_refl _
      · exact hle pm h3
  · intro G ratio samp ded st hall
    have hnone : selectTarget st.pms = none := selectTarget_none_iff.mpr hall
    unfold single_iteration
    rw [hnone]

/-- Witness for C6 (amended): the first-position tie-break observed on the
concrete two-host list, and immediate failure on a state with an empty
host. -/
theorem C6_target_selection_witness :
    (pmX ∈ [pmX, pmY] ∧ pmX.vms ≠ [] ∧
      (∀ pm ∈ [pmX, pmY], pm.vms ≠ [] → pmX.vms.length ≤ pm.vms.length) ∧
      ∃ l1 l2, ([pmX, pmY].filter (fun pm => !pm.vms.isEmpty)) = l1 ++ pmX :: l2 ∧
        ∀ pm ∈ l1, pmX.vms.length < pm.vms.length) ∧
    single_iteration 1 (15/100) (sampTake 0) (dedDedup 0) ⟨[pmW], [], 0⟩ =
      (⟨[pmW], [], 0⟩, false) :=
  ⟨C6_target_selection.2.1 [pmX, pmY] pmX
      (by norm_num [selectTarget, pyMinBy, pmX, pmY]),
    C6_target_selection.2.2 1 (15/100) (sampTake 0) (dedDedup 0) ⟨[pmW], [], 0⟩
      (by simp [pmW])⟩

/-- Counterexample for C7: the reversed dedup order is an admissible
`list(set(...))` iteration order, and under it two equal-demand VMs are
processed as ["b", "a"], which is not sorted by the claimed
identifier tie-break. -/
theorem C7_counterexample :
    DedOk dedRevDedup ∧
    sortQueue vmsQ (dedRevDedup ["a", "b"]) = ["b", "a"] ∧
    ¬List.Sorted (specQueueRel vmsQ) (sortQueue vmsQ (dedRevDedup ["a", "b"])) := by
  have hab : (("a" : String) == "b") = false := by decide
  have hbb : (("b" : String) == "b") = true := by decide
  have haa : (("a" : String) == "a") = true := by decide
  have hba : (("b" : String) == "a") = false := by decide
  have hne : ¬(("a" : String) = "b") := by decide
  have heval : sortQueue vmsQ (dedRevDedup ["a", "b"]) = ["b", "a"] := by
    norm_num [sortQueue, dedRevDedup, List.insertionSort, List.orderedInsert, queueLe,
      umaxOf, lookupVM, vmsQ, vmQa, vmQb, VM.u_max, List.find?_cons,
      List.dedup_cons_of_not_mem, hab, hbb, haa, hba, hne]
  refine ⟨?_, heval, ?_⟩
  · intro l
    exact ⟨List.nodup_reverse.mpr l.nodup_dedup, fun x => by simp [dedRevDedup]⟩
  · rw [heval]
    intro hs
    have hrel : specQueueRel vmsQ "b" "a" := List.rel_of_sorted_cons hs "a" (by simp)
    unfold specQueueRel at hrel
    rcases hrel with hlt | ⟨_, hble⟩
    · norm_num [umaxOf, lookupVM, vmsQ, vmQa, vmQb, VM.u_max, List.find?_cons,
        hab, hbb, haa, hba] at hlt
    · refine absurd hble ?_
      rw [String.le_iff_toList_le]
      decide

/-- C7 (amended): for every admissible set-iteration order, the processed
queue is duplicate-free, contains exactly the queued VM ids, and is sorted
by descending worst-case demand; equal-demand ties keep the unspecified
set-iteration order rather than the VM-identifier order. -/
theorem C7_queue_order (all_vms : List VM) (q : List String)
    (ded : List String → List String) (hded : DedOk ded) :
    (sortQueue all_vms (ded q)).Nodup ∧
    (∀ x, x ∈ sortQueue all_vms (ded q) ↔ x ∈ q) ∧
    List.Sorted (queueLe all_vms) (sortQueue all_vms (ded q)) := by
  obtain ⟨hnd, hmem⟩ := hded q
  refine ⟨(sortQueue_perm all_vms (ded q)).nodup_iff.mpr hnd, ?_,
    sortQueue_sorted all_vms (ded q)⟩
  intro x
  rw [(sortQueue_perm all_vms (ded q)).mem_iff]
  exact hmem x

/-- Witness for C7 (amended): the first-occurrence dedup order is
admissible, and the concrete queue is dedup-free, membership-exact and
sorted by descending demand. -/
theorem C7_queue_order_witness :
    (sortQueue vmsQ (dedDedup 0 ["a", "b"])).Nodup ∧
    (∀ x, x ∈ sortQueue vmsQ (dedDedup 0 ["a", "b"]) ↔ x ∈ ["a", "b"]) ∧
    List.Sorted (queueLe vmsQ) (sortQueue vmsQ (dedDedup 0 ["a", "b"])) :=
  C7_queue_order vmsQ ["a", "b"] (dedDedup 0)
    (fun l => ⟨by simpa [dedDedup] using l.nodup_dedup, fun x => by simp [dedDedup]⟩)

/-- Counterexample for C8: a single VM with radius 0 satisfies the
data-model invariants, yet raising the budget from 0 to 1 leaves
`robust_cpu_usage` unchanged — the evaluator is not strictly increasing in
the budget. -/
theorem C8_counterexample :
    (0 : ℕ) < 1 ∧ 0 ≤ vmR.u_c ∧ 0 ≤ vmR.u_r ∧ (1 : ℕ) ≤ ([vmR] : List VM).length ∧
    robust_cpu_usage [vmR] 0 = robust_cpu_usage [vmR] 1 := by
  refine ⟨by decide, by norm_num [vmR], by norm_num [vmR], by simp, ?_⟩
  norm_num [robust_cpu_usage, topSum, sortDesc, List.insertionSort, List.orderedInsert, vmR]

/-- C8 (amended): for VM sets satisfying the nonnegativity invariant,
`robust_cpu_usage` is at least the center sum, at most the center sum plus
the radius sum, and monotonically nondecreasing (not strictly increasing)
in the robustness budget. -/
theorem C8_bounds_monotone (vms : List VM) (G G2 : ℕ) (h0 : NonnegVMs vms) (hGG : G ≤ G2) :
    (vms.map VM.u_c).sum ≤ robust_cpu_usage vms G ∧
    robust_cpu_usage vms G ≤ (vms.map VM.u_c).sum + (vms.map VM.u_r).sum ∧
    robust_cpu_usage vms G ≤ robust_cpu_usage vms G2 := by
  have hr : ∀ x ∈ vms.map VM.u_r, 0 ≤ x := by
    intro x hx
    obtain ⟨v, hv, rfl⟩ := List.mem_map.mp hx
    exact (h0 v hv).2.1
  simp only [robust_eq_formula]
  refine ⟨?_, ?_, ?_⟩
  · have hnn := topSum_nonneg hr G
    linarith
  · have hub := topSum_le_sum hr G
    linarith
  · have hmono := topSum_mono_budget hGG hr
    linarith

/-- Witness for C8 (amended): the bounds and monotonicity evaluated at the
concrete radius-0 VM with budgets 0 and 1. -/
theorem C8_bounds_monotone_witness :
    (([vmR] : List VM).map VM.u_c).sum ≤ robust_cpu_usage [vmR] 0 ∧
    robust_cpu_usage [vmR] 0 ≤ (([vmR] : List VM).map VM.u_c).sum +
      (([vmR] : List VM).map VM.u_r).sum ∧
    robust_cpu_usage [vmR] 0 ≤ robust_cpu_usage [vmR] 1 :=
  C8_bounds_monotone [vmR] 0 1
    (by
      intro v hv
      simp only [List.mem_singleton] at hv
      subst hv
      norm_num [vmR])
    (by decide)

/-- C9: with unique VM identifiers, the constructor raises exactly when
some input VM references a host identifier absent from the host list, and
when it raises no engine instance is produced. -/
theorem C9_constructor_validation (pms : List PM) (vms : List VM)
    (h : (vms.map VM.id).Nodup) :
    ((∃ vm ∈ vms, ∃ p, vm.pm_id = some p ∧ ∀ pm ∈ pms, pm.id ≠ p) ↔
      ∃ e, mkSolver pms vms = Except.error e) ∧
    (∀ e, mkSolver pms vms = Except.error e → ∀ st, ¬mkSolver pms vms = Except.ok st) := by
  refine ⟨(mkSolver_error_iff h).symm, ?_⟩
  intro e he st hok
  rw [he] at hok
  cases hok

/-- Witness for C9: a VM referencing the absent host id 2 makes the
constructor fail. -/
theorem C9_constructor_validation_witness :
    ∃ e, mkSolver [pmW] [vmW] = Except.error e :=
  (C9_constructor_validation [pmW] [vmW] (by simp [vmW])).1.mp
    ⟨vmW, by simp, 2, rfl, by
      intro pm hpm
      simp only [List.mem_singleton] at hpm
      subst hpm
      decide⟩

/-- C10: the drained target host is back in the first-fit scan: on a
one-host input the iteration drains the host, places the VM back on it,
commits, and `run()` returns true with the placement identical to the
initial one and a zero migration counter. -/
theorem C10_target_not_excluded :
    (run 1 (15/100) 1 sampTake dedDedup st0).2 = true ∧
    (run 1 (15/100) 1 sampTake dedDedup st0).1.pms = st0.pms ∧
    (run 1 (15/100) 1 sampTake dedDedup st0).1.vms = st0.vms ∧
    (run 1 (15/100) 1 sampTake dedDedup st0).1.migration_count = 0 := by
  norm_num [run, runLoop, single_iteration, selectTarget, pyMinBy, sampleStep, sampleK,
    sortQueue, List.insertionSort, List.orderedInsert, queueLe, umaxOf, lookupVM, lookupVMs,
    placeQueue, firstFit, can_place_vm_on_pm, robust_cpu_usage, topSum, sortDesc, setPmId,
    countMoved, eps, st0, vmA, pmA, sampTake, dedDedup, List.dedup_cons_of_not_mem,
    List.find?_cons, List.filterMap_cons]

end GammaFF
